import Mathlib

/-!
Shallow embedding of `Session_2_Tuning_Curves.ipynb` (TReND-CaMinA, Zambia25
Allen tutorial).  The notebook loads a DF/F fluorescence trace (a 1-D float
array, modelled as `List ℚ`) and a drifting-gratings stimulus table (rows with
`start`, `end` frame indices plus float columns `orientation`,
`temporal_frequency`, `blank_sweep`), computes a per-trial mean response, and
aggregates it into 1-D and 2-D tuning curves plus a z-scored array.

Floats are modelled as `Option ℚ`: `none` stands for NaN (the blank-sweep
rows carry NaN direction / temporal frequency), and every comparison with a
NaN is false, as in IEEE / numpy.  Exact rational arithmetic stands in for
binary floating point: the claims under study are about index ranges,
grouping and algebraic identities, none of which depend on rounding.
-/

namespace Session2

/-- A numpy float value: `none` models NaN, `some q` a finite value. -/
abbrev FVal := Option ℚ

/-- Float equality test: NaN compares unequal to everything (itself included),
mirroring numpy `==` on float arrays. -/
def feq : FVal → FVal → Bool
  | some a, some b => a == b
  | _, _ => false

/-- `x == q` for a float `x` against a finite constant `q`
(e.g. `direction == 270`). -/
def feqC (x : FVal) (q : ℚ) : Bool := feq x (some q)

/-- One row of the drifting-gratings stimulus table: `start`/`end` are the
frame numbers where the trial starts and ends, `orientation` is the grating
direction in degrees (NaN on blank sweeps), `temporal_frequency` is in Hz
(NaN on blank sweeps), `blank_sweep` flags the gray-screen trials. -/
structure StimRow where
  start : ℕ
  «end» : ℕ
  orientation : FVal
  temporal_frequency : FVal
  blank_sweep : FVal
  deriving DecidableEq, Repr

/-- Default row, used only to give `List.getD` a junk value at out-of-range
indices (the loops below never read out of range). -/
def dRow : StimRow := ⟨0, 0, none, none, none⟩

/-- The `orientation` column of the table, `direction = stim_table.orientation.values`. -/
def direction (tbl : List StimRow) : List FVal := tbl.map (·.orientation)

/-- The `temporal_frequency` column,
`temporal_frequency = stim_table.temporal_frequency.values`. -/
def temporal_frequency (tbl : List StimRow) : List FVal :=
  tbl.map (·.temporal_frequency)

/-! ### Python / numpy primitives -/

/-- Normalise a (possibly negative) Python slice bound against a length:
a negative index counts from the end (clamped at 0), a nonnegative one is
clamped at the length. -/
def normIdx (len : ℕ) (i : Int) : ℕ :=
  if i < 0 then ((len : Int) + i).toNat else min i.toNat len

/-- Slice with already-normalised natural bounds: elements `a, a+1, ..., b-1`. -/
def natSlice (l : List ℚ) (a b : ℕ) : List ℚ := (l.drop a).take (b - a)

/-- Python/numpy basic slicing `l[s:e]` (step 1): bounds are normalised
(negative indices count from the end) and clamped, never an error. -/
def pySlice (l : List ℚ) (s e : Int) : List ℚ :=
  natSlice l (normIdx l.length s) (normIdx l.length e)

/-- `np.mean` of a float array with no NaNs inside: NaN (`none`) on an empty
array, the arithmetic mean otherwise. -/
def npMeanQ (l : List ℚ) : FVal :=
  if l.isEmpty then none else some (l.sum / l.length)

/-- `np.mean` of a float array that may hold NaNs: NaN if the array is empty
or any entry is NaN, the arithmetic mean of the entries otherwise. -/
def npMeanF (l : List FVal) : FVal :=
  if l.isEmpty then none
  else if l.any (·.isNone) then none
  else some ((l.filterMap id).sum / l.length)

/-- `np.zeros(n)` as a float array. -/
def npZeros (n : ℕ) : List FVal := List.replicate n (some 0)

/-- `np.empty(n)`: numpy leaves the memory uninitialised; modelled as zeros.
The theorems below only ever inspect entries that the loops overwrite. -/
def npEmpty (n : ℕ) : List FVal := List.replicate n (some 0)

/-- Boolean-mask selection `vals[mask]`: keep, in order, the entries of
`vals` whose mask entry is `true`. -/
def maskSelect (vals : List FVal) (mask : List Bool) : List FVal :=
  ((vals.zip mask).filter (·.2)).map (·.1)

/-- Elementwise float comparison `col == q` producing a boolean mask. -/
def eqMask (col : List FVal) (q : ℚ) : List Bool := col.map (fun x => feqC x q)

/-- Elementwise `&` of two boolean masks. -/
def andMask (m₁ m₂ : List Bool) : List Bool := List.zipWith (· && ·) m₁ m₂

/-! ### The trial-response loop (notebook cell
`trial_response = np.zeros(len(stim_table)); for i in range(len(stim_table)): ...`) -/

/-- Execute a list of indexed writes `(i, v)` left to right on an array:
the sequential in-place assignments of a Python loop. -/
def fillAt (writes : List (ℕ × FVal)) (acc : List FVal) : List FVal :=
  match writes with
  | [] => acc
  | (i, v) :: rest => fillAt rest (acc.set i v)

/-- The write performed by iteration `i` of the trial-response loop:
`trial_response[i] = dff_trace[stim_table.start[i]:stim_table.end[i]].mean()`. -/
def trialWrite (dff : List ℚ) (tbl : List StimRow) (i : ℕ) : ℕ × FVal :=
  (i, npMeanQ (pySlice dff ((tbl.getD i dRow).start : Int) ((tbl.getD i dRow).«end» : Int)))

/-- The full sequence of writes of the trial-response loop, one per row of
the stimulus table, in order. -/
def trialWrites (dff : List ℚ) (tbl : List StimRow) : List (ℕ × FVal) :=
  (List.range tbl.length).map (trialWrite dff tbl)

/-- `trial_response`: a zero array of length `len(stim_table)` filled by the
loop with the mean DF/F of each trial's `[start, end)` frame range. -/
def trial_response (dff : List ℚ) (tbl : List StimRow) : List FVal :=
  fillAt (trialWrites dff tbl) (npZeros tbl.length)

/-- Specification-side arithmetic mean of the trace over the half-open index
range `[a, b)`, written directly as an indexed sum. -/
def meanOverRange (l : List ℚ) (a b : ℕ) : ℚ :=
  ((List.range' a (b - a)).map (fun k => l.getD k 0)).sum / ((b : ℚ) - (a : ℚ))

/-! ### Generic facts about the sequential-write loop -/

theorem fillAt_length : ∀ (ws : List (ℕ × FVal)) (acc : List FVal),
    (fillAt ws acc).length = acc.length := by
  intro ws
  induction ws with
  | nil => intro acc; rfl
  | cons w rest ih =>
    intro acc
    obtain ⟨j, v⟩ := w
    rw [fillAt, ih, List.length_set]

theorem fillAt_get?_not_mem : ∀ (ws : List (ℕ × FVal)) (acc : List FVal) (i : ℕ),
    i ∉ ws.map Prod.fst → (fillAt ws acc)[i]? = acc[i]? := by
  intro ws
  induction ws with
  | nil => intro acc i _; rfl
  | cons w rest ih =>
    intro acc i h
    obtain ⟨j, v⟩ := w
    simp only [List.map_cons, List.mem_cons] at h
    push_neg at h
    rw [fillAt, ih _ _ h.2, List.getElem?_set_ne (Ne.symm h.1)]

theorem fillAt_get?_mem : ∀ (ws : List (ℕ × FVal)) (acc : List FVal) (i : ℕ) (v : FVal),
    (ws.map Prod.fst).Nodup → (i, v) ∈ ws → i < acc.length →
    (fillAt ws acc)[i]? = some v := by
  intro ws
  induction ws with
  | nil => intro acc i v _ hm _; simp at hm
  | cons w rest ih =>
    intro acc i v hn hm hi
    obtain ⟨j, w⟩ := w
    simp only [List.map_cons, List.nodup_cons] at hn
    rcases List.mem_cons.mp hm with heq | hmem
    · cases heq
      rw [fillAt, fillAt_get?_not_mem _ _ _ hn.1, List.getElem?_set_eq_of_lt _ hi]
    · rw [fillAt]
      exact ih _ _ _ hn.2 hmem (by rw [List.length_set]; exact hi)

/-! ### The trial-response loop, resolved -/

theorem trialWrites_map_fst (dff : List ℚ) (tbl : List StimRow) :
    (trialWrites dff tbl).map Prod.fst = List.range tbl.length := by
  rw [trialWrites, List.map_map]
  show List.map id (List.range tbl.length) = List.range tbl.length
  exact List.map_id _

theorem trial_response_length (dff : List ℚ) (tbl : List StimRow) :
    (trial_response dff tbl).length = tbl.length := by
  rw [trial_response, fillAt_length, npZeros, List.length_replicate]

theorem trial_response_get? (dff : List ℚ) (tbl : List StimRow) (i : ℕ)
    (hi : i < tbl.length) :
    (trial_response dff tbl)[i]? =
      some (npMeanQ (pySlice dff ((tbl.getD i dRow).start : Int)
        ((tbl.getD i dRow).«end» : Int))) := by
  apply fillAt_get?_mem
  · rw [trialWrites_map_fst]; exact List.nodup_range _
  · exact List.mem_map.mpr ⟨i, List.mem_range.mpr hi, rfl⟩
  · simpa [npZeros]

theorem pySlice_natCast (l : List ℚ) (s e : ℕ) (he : e ≤ l.length) (hse : s ≤ e) :
    pySlice l (s : Int) (e : Int) = natSlice l s e := by
  have hs : ¬ ((s : Int) < 0) := by omega
  have he' : ¬ ((e : Int) < 0) := by omega
  simp only [pySlice, normIdx, hs, he', if_false, Int.toNat_natCast]
  rw [Nat.min_eq_left (hse.trans he), Nat.min_eq_left he]

theorem natSlice_eq_map_range' (l : List ℚ) (a b : ℕ) (hb : b ≤ l.length) :
    natSlice l a b = (List.range' a (b - a)).map (fun k => l.getD k 0) := by
  apply List.ext_getElem
  · simp only [natSlice, List.length_take, List.length_drop, List.length_map,
      List.length_range']
    exact Nat.min_eq_left (Nat.sub_le_sub_right hb a)
  · intro i h1 h2
    simp only [natSlice, List.length_take, List.length_drop, lt_min_iff] at h1
    have hia : a + i < l.length := by omega
    simp only [natSlice, List.getElem_take, List.getElem_drop, List.getElem_map,
      List.getElem_range', one_mul]
    rw [List.getD_eq_getElem l 0 hia]

theorem npMeanQ_slice (dff : List ℚ) (s e : ℕ) (hse : s < e) (hel : e ≤ dff.length) :
    npMeanQ (pySlice dff (s : Int) (e : Int)) = some (meanOverRange dff s e) := by
  rw [pySlice_natCast dff s e hel hse.le, natSlice_eq_map_range' dff s e hel]
  have hne : (List.range' s (e - s)).map (fun k => dff.getD k 0) ≠ [] := by
    simp only [ne_eq, List.map_eq_nil_iff, List.range'_eq_nil]
    omega
  rw [npMeanQ, if_neg (by simpa [List.isEmpty_iff] using hne)]
  rw [meanOverRange]
  congr 1
  rw [List.length_map, List.length_range']
  push_cast [Nat.cast_sub hse.le]
  ring

/-- C1: for every trial `i` (every row of the stimulus table), the loop fills
all `len(stim_table)` entries of `trial_response`, and `trial_response[i]` is
`dff_trace[start[i]:end[i]].mean()` — the arithmetic mean of the DF/F trace
over the half-open range `[start[i], end[i])` (the sample at `end[i]` is
excluded) whenever the range is nonempty and in bounds. -/
theorem C1_trial_response (dff : List ℚ) (tbl : List StimRow) :
    (trial_response dff tbl).length = tbl.length ∧
    ∀ i, i < tbl.length →
      (trial_response dff tbl)[i]? =
        some (npMeanQ (pySlice dff ((tbl.getD i dRow).start : Int)
          ((tbl.getD i dRow).«end» : Int))) ∧
      ((tbl.getD i dRow).start < (tbl.getD i dRow).«end» →
        (tbl.getD i dRow).«end» ≤ dff.length →
        (trial_response dff tbl)[i]? =
          some (some (meanOverRange dff (tbl.getD i dRow).start
            (tbl.getD i dRow).«end»))) := by
  refine ⟨trial_response_length dff tbl, fun i hi => ⟨trial_response_get? dff tbl i hi, ?_⟩⟩
  intro hse hel
  rw [trial_response_get? dff tbl i hi, npMeanQ_slice dff _ _ hse hel]

/-- A tiny concrete DF/F trace used to witness the theorems. -/
def wDff : List ℚ := [1, 2, 4, 8, 16, 32]

/-- A tiny concrete stimulus table used to witness the theorems. -/
def wTbl : List StimRow :=
  [⟨1, 3, some 0, some 1, some 0⟩, ⟨3, 5, some 90, some 2, some 0⟩]

/-- Witness for C1 at a concrete trace and table: trial 0 covers frames 1 and 2
(values 2 and 4), so its response is their mean 3. -/
theorem C1_trial_response_witness :
    (trial_response wDff wTbl)[0]? = some (some (meanOverRange wDff 1 3)) ∧
    meanOverRange wDff 1 3 = 3 :=
  ⟨((C1_trial_response wDff wTbl).2 0 (by decide)).2 (by decide) (by decide), by
    have h : List.range' 1 (3 - 1) = [1, 2] := rfl
    rw [meanOverRange, h]
    norm_num [wDff]⟩

/-! ### Unique stimulus values (`np.unique` + finiteness filter) -/

/-- The distinct elements of a rational list in ascending order. -/
def uniqueSorted (l : List ℚ) : List ℚ := List.insertionSort (· ≤ ·) l.dedup

/-- `np.unique` on a float array: the distinct finite values in ascending
order, followed by the NaN entries (numpy sorts NaNs to the end; NaNs compare
unequal even to each other, so they are not merged with anything). -/
def npUnique (l : List FVal) : List FVal :=
  (uniqueSorted (l.filterMap id)).map some ++
    List.replicate (l.countP (·.isNone)) none

/-- `all_dir = np.unique(direction)`. -/
def all_dir (tbl : List StimRow) : List FVal := npUnique (direction tbl)

/-- `dirvals = all_dir[np.isfinite(all_dir)]`: the finite entries of
`all_dir`, in order. -/
def dirvals (tbl : List StimRow) : List ℚ := (all_dir tbl).filterMap id

/-- Modelled from the spec: `tfvals` is referenced by the 2-D aggregation cell
but is never assigned by any code cell of the notebook (producing it is left
to the learner as Exercise 3).  Following the claim's words — one column per
finite unique temporal-frequency value — it is modelled as the finite unique
temporal-frequency values, exactly analogous to `dirvals`. -/
def tfvals (tbl : List StimRow) : List ℚ :=
  (npUnique (temporal_frequency tbl)).filterMap id

theorem filterMap_id_replicate_none (n : ℕ) :
    (List.replicate n (none : FVal)).filterMap id = [] := by
  induction n with
  | zero => rfl
  | succ m ih => rw [List.replicate_succ, List.filterMap_cons_none rfl, ih]

theorem filterMap_id_map_some (l : List ℚ) :
    (l.map (some : ℚ → FVal)).filterMap id = l := by
  induction l with
  | nil => rfl
  | cons a as ih => rw [List.map_cons]; simp [ih]

theorem dirvals_eq_uniqueSorted (tbl : List StimRow) :
    dirvals tbl = uniqueSorted ((direction tbl).filterMap id) := by
  rw [dirvals, all_dir, npUnique, List.filterMap_append,
    filterMap_id_replicate_none, filterMap_id_map_some, List.append_nil]

theorem tfvals_eq_uniqueSorted (tbl : List StimRow) :
    tfvals tbl = uniqueSorted ((temporal_frequency tbl).filterMap id) := by
  rw [tfvals, npUnique, List.filterMap_append,
    filterMap_id_replicate_none, filterMap_id_map_some, List.append_nil]

/-! ### Boolean-mask selection, characterised -/

theorem zip_filter_map_mask (p : FVal → Bool) :
    ∀ (vals col : List FVal),
      ((vals.zip (col.map p)).filter (·.2)).map (·.1) =
        ((vals.zip col).filter (fun q => p q.2)).map (·.1) := by
  intro vals
  induction vals with
  | nil => intro col; rfl
  | cons a vs ih =>
    intro col
    cases col with
    | nil => rfl
    | cons c cs =>
      rw [List.map_cons, List.zip_cons_cons, List.zip_cons_cons,
        List.filter_cons, List.filter_cons]
      cases h : p c
      · simpa [h] using ih cs
      · simpa [h] using ih cs

/-- `trial_response[direction==d]` is: pair each trial's response with its
direction, keep the pairs whose direction equals `d`, take the responses. -/
theorem maskSelect_eqMask (vals col : List FVal) (d : ℚ) :
    maskSelect vals (eqMask col d) =
      ((vals.zip col).filter (fun q => feqC q.2 d)).map (·.1) := by
  rw [maskSelect, eqMask]
  exact zip_filter_map_mask _ vals col

/-! ### The 1-D direction tuning loop (`tuning = np.empty((8)); ...`) -/

/-- The value the 1-D loop writes for direction `d`:
`trials = direction==d; trial_response[trials].mean()`. -/
def dirMean (dff : List ℚ) (tbl : List StimRow) (d : ℚ) : FVal :=
  npMeanF (maskSelect (trial_response dff tbl) (eqMask (direction tbl) d))

/-- The writes of `for i, d in enumerate(dirvals): tuning[i] = ...`. -/
def tuningWrites (dff : List ℚ) (tbl : List StimRow) : List (ℕ × FVal) :=
  (dirvals tbl).enum.map (fun p => (p.1, dirMean dff tbl p.2))

/-- `tuning`: `np.empty((8))` filled with the per-direction mean responses. -/
def tuning (dff : List ℚ) (tbl : List StimRow) : List FVal :=
  fillAt (tuningWrites dff tbl) (npEmpty 8)

theorem tuningWrites_map_fst (dff : List ℚ) (tbl : List StimRow) :
    (tuningWrites dff tbl).map Prod.fst = List.range (dirvals tbl).length := by
  rw [tuningWrites, List.map_map]
  show List.map Prod.fst (dirvals tbl).enum = _
  exact List.enum_map_fst _

theorem tuning_get? (dff : List ℚ) (tbl : List StimRow) (i : ℕ)
    (hi : i < (dirvals tbl).length) (h8 : i < 8) :
    (tuning dff tbl)[i]? = some (dirMean dff tbl ((dirvals tbl).getD i 0)) := by
  apply fillAt_get?_mem
  · rw [tuningWrites_map_fst]; exact List.nodup_range _
  · refine List.mem_map.mpr ⟨(i, (dirvals tbl).getD i 0), ?_, rfl⟩
    refine List.mk_mem_enum_iff_getElem?.mpr ?_
    rw [List.getD_eq_getElem _ _ hi]
    exact List.getElem?_eq_getElem hi
  · simpa [npEmpty]

/-- C3: the direction tuning curve has one entry per finite unique direction
value (8 of them here), and entry `i` is the mean of `trial_response` over
exactly the trials whose direction equals `dirvals[i]`, pooling every temporal
frequency — the grouping key is the direction alone. -/
theorem C3_tuning_curve (dff : List ℚ) (tbl : List StimRow)
    (h8 : (dirvals tbl).length = 8) :
    (tuning dff tbl).length = 8 ∧
    ∀ i, i < 8 →
      (tuning dff tbl)[i]? =
        some (npMeanF ((((trial_response dff tbl).zip (direction tbl)).filter
          (fun q => feqC q.2 ((dirvals tbl).getD i 0))).map (·.1))) := by
  constructor
  · rw [tuning, fillAt_length, npEmpty, List.length_replicate]
  · intro i hi
    rw [tuning_get? dff tbl i (h8 ▸ hi) hi, dirMean, maskSelect_eqMask]

/-- A concrete stimulus table with the 8 directions of the drifting-gratings
stimulus, used to witness the tuning-curve theorems. -/
def wTbl8 : List StimRow :=
  [⟨0, 2, some 0, some 1, some 0⟩, ⟨2, 4, some 45, some 2, some 0⟩,
   ⟨4, 6, some 90, some 1, some 0⟩, ⟨6, 8, some 135, some 2, some 0⟩,
   ⟨8, 10, some 180, some 1, some 0⟩, ⟨10, 12, some 225, some 2, some 0⟩,
   ⟨12, 14, some 270, some 1, some 0⟩, ⟨14, 16, some 315, some 2, some 0⟩,
   ⟨16, 18, none, none, some 1⟩]

/-- Witness for C3 at the concrete table (8 finite directions, one blank
sweep): entry 2 of the curve is the mean over the trials with direction 90. -/
theorem C3_tuning_curve_witness :
    (tuning wDff wTbl8)[2]? =
      some (npMeanF ((((trial_response wDff wTbl8).zip (direction wTbl8)).filter
        (fun q => feqC q.2 ((dirvals wTbl8).getD 2 0))).map (·.1))) :=
  (C3_tuning_curve wDff wTbl8 (by decide)).2 2 (by decide)

/-- The hand-computed single-condition average of notebook cell 45:
`trials = direction==270; trial_response[trials].mean()`. -/
def cell45_mean (dff : List ℚ) (tbl : List StimRow) : FVal :=
  npMeanF (maskSelect (trial_response dff tbl) (eqMask (direction tbl) 270))

/-- C5: the one-off boolean-selection average and the loop-based grouping
agree: for every direction value `d` sitting at index `k` of `dirvals`, the
tuning-curve entry at `k` is the boolean-selection mean for `d`; in
particular, at the index where `dirvals` is 270 the entry is exactly the
hand-computed cell-45 average. -/
theorem C5_oneoff_eq_tuning (dff : List ℚ) (tbl : List StimRow) :
    (∀ k d, k < 8 → (dirvals tbl)[k]? = some d →
      (tuning dff tbl)[k]? = some (dirMean dff tbl d)) ∧
    (∀ k, k < 8 → (dirvals tbl)[k]? = some 270 →
      (tuning dff tbl)[k]? = some (cell45_mean dff tbl)) := by
  have hgen : ∀ k d, k < 8 → (dirvals tbl)[k]? = some d →
      (tuning dff tbl)[k]? = some (dirMean dff tbl d) := by
    intro k d h8 hk
    obtain ⟨hlt, -⟩ := List.getElem?_eq_some.mp hk
    rw [tuning_get? dff tbl k hlt h8, List.getD_eq_getElem?_getD, hk]
    rfl
  exact ⟨hgen, fun k hk h270 => hgen k 270 hk h270⟩

/-- Witness for C5: in the concrete table, 270 is `dirvals[6]`, and the
tuning entry there is the hand-computed average. -/
theorem C5_oneoff_eq_tuning_witness :
    (tuning wDff wTbl8)[6]? = some (cell45_mean wDff wTbl8) :=
  (C5_oneoff_eq_tuning wDff wTbl8).2 6 (by decide) (by decide)

/-! ### 2-D arrays and the 2-D tuning loop -/

/-- A 2-D float array as a list of rows. -/
abbrev Mat := List (List FVal)

/-- `np.empty((m,n))`, modelled as zeros (see `npEmpty`). -/
def npEmpty2 (m n : ℕ) : Mat := List.replicate m (List.replicate n (some 0))

/-- In-place write `M[j,i] = v`. -/
def set2 (M : Mat) (j i : ℕ) (v : FVal) : Mat :=
  M.set j ((M.getD j []).set i v)

/-- Read `M[j,i]`, `none` when out of range. -/
def get2? (M : Mat) (j i : ℕ) : Option FVal := (M[j]?).bind (fun r => r[i]?)

/-- Execute a list of 2-D indexed writes `((j,i), v)` left to right. -/
def fillAt2 (writes : List ((ℕ × ℕ) × FVal)) (M : Mat) : Mat :=
  match writes with
  | [] => M
  | ((j, i), v) :: rest => fillAt2 rest (set2 M j i v)

theorem getD_row_length (M : Mat) (j : ℕ) :
    (M.getD j []).length = ((M[j]?).map List.length).getD 0 := by
  cases h : M[j]? <;> simp [List.getD_eq_getElem?_getD, h]

theorem get2?_set2_ne (M : Mat) (j i j' i' : ℕ) (v : FVal)
    (h : (j', i') ≠ (j, i)) : get2? (set2 M j' i' v) j i = get2? M j i := by
  rw [set2, get2?, get2?]
  by_cases hj : j' = j
  · subst hj
    have hii : i' ≠ i := fun he => h (by rw [he])
    by_cases hlen : j' < M.length
    · rw [List.getElem?_set_eq hlen, List.getElem?_eq_getElem hlen]
      simp only [Option.some_bind]
      rw [List.getElem?_set_ne hii, List.getD_eq_getElem _ _ hlen]
    · rw [List.set_eq_of_length_le (le_of_not_lt hlen)]
  · rw [List.getElem?_set_ne hj]

theorem get2?_set2_eq (M : Mat) (j i : ℕ) (v : FVal) (hj : j < M.length)
    (hi : i < (M.getD j []).length) : get2? (set2 M j i v) j i = some v := by
  rw [set2, get2?, List.getElem?_set_eq hj]
  simp only [Option.some_bind]
  exact List.getElem?_set_eq hi

theorem set2_length (M : Mat) (j i : ℕ) (v : FVal) :
    (set2 M j i v).length = M.length := List.length_set ..

theorem set2_row_length (M : Mat) (j i : ℕ) (v : FVal) (j'' : ℕ) :
    ((set2 M j i v)[j'']?).map List.length = (M[j'']?).map List.length := by
  by_cases hj : j = j''
  · subst hj
    by_cases hlen : j < M.length
    · rw [set2, List.getElem?_set_eq hlen, List.getElem?_eq_getElem hlen]
      simp [List.getD_eq_getElem?_getD, List.getElem?_eq_getElem hlen]
    · rw [set2, List.set_eq_of_length_le (le_of_not_lt hlen)]
  · rw [set2, List.getElem?_set_ne hj]

theorem fillAt2_length : ∀ (ws : List ((ℕ × ℕ) × FVal)) (M : Mat),
    (fillAt2 ws M).length = M.length := by
  intro ws
  induction ws with
  | nil => intro M; rfl
  | cons w rest ih =>
    intro M
    obtain ⟨⟨j, i⟩, v⟩ := w
    rw [fillAt2, ih, set2_length]

theorem fillAt2_row_length : ∀ (ws : List ((ℕ × ℕ) × FVal)) (M : Mat) (j : ℕ),
    ((fillAt2 ws M)[j]?).map List.length = (M[j]?).map List.length := by
  intro ws
  induction ws with
  | nil => intro M j; rfl
  | cons w rest ih =>
    intro M j
    obtain ⟨⟨j', i'⟩, v⟩ := w
    rw [fillAt2, ih, set2_row_length]

theorem fillAt2_not_mem : ∀ (ws : List ((ℕ × ℕ) × FVal)) (M : Mat) (j i : ℕ),
    (j, i) ∉ ws.map Prod.fst → get2? (fillAt2 ws M) j i = get2? M j i := by
  intro ws
  induction ws with
  | nil => intro M j i _; rfl
  | cons w rest ih =>
    intro M j i h
    obtain ⟨⟨j', i'⟩, v⟩ := w
    simp only [List.map_cons, List.mem_cons] at h
    push_neg at h
    rw [fillAt2, ih _ _ _ h.2, get2?_set2_ne _ _ _ _ _ _ (Ne.symm h.1)]

theorem fillAt2_mem : ∀ (ws : List ((ℕ × ℕ) × FVal)) (M : Mat) (j i : ℕ) (v : FVal),
    (ws.map Prod.fst).Nodup → ((j, i), v) ∈ ws →
    j < M.length → i < (M.getD j []).length →
    get2? (fillAt2 ws M) j i = some v := by
  intro ws
  induction ws with
  | nil => intro M j i v _ hm _ _; simp at hm
  | cons w rest ih =>
    intro M j i v hn hm hj hi
    obtain ⟨⟨j', i'⟩, w⟩ := w
    simp only [List.map_cons, List.nodup_cons] at hn
    rcases List.mem_cons.mp hm with heq | hmem
    · cases heq
      rw [fillAt2, fillAt2_not_mem _ _ _ _ hn.1, get2?_set2_eq _ _ _ _ hj hi]
    · rw [fillAt2]
      refine ih _ _ _ _ hn.2 hmem (by rw [set2_length]; exact hj) ?_
      rw [getD_row_length, set2_row_length, ← getD_row_length]
      exact hi

/-! ### The 2-D tuning-array loop (`tuning_array = np.empty((8,5)); ...`) -/

/-- The value the 2-D loop writes for temporal frequency `tf` and direction
`d`: `trials = (temporal_frequency==tf)&(direction==d);
trial_response[trials].mean()`. -/
def tfdirMean (dff : List ℚ) (tbl : List StimRow) (tf d : ℚ) : FVal :=
  npMeanF (maskSelect (trial_response dff tbl)
    (andMask (eqMask (temporal_frequency tbl) tf) (eqMask (direction tbl) d)))

/-- The writes of the nested loop
`for i,tf in enumerate(tfvals): for j,d in enumerate(dirvals):
tuning_array[j,i] = ...`, in execution order. -/
def tuningArrayWrites (dff : List ℚ) (tbl : List StimRow) :
    List ((ℕ × ℕ) × FVal) :=
  (tfvals tbl).enum.flatMap (fun q =>
    (dirvals tbl).enum.map (fun p => ((p.1, q.1), tfdirMean dff tbl q.2 p.2)))

/-- `tuning_array`: `np.empty((8,5))` filled with the per-condition means;
row `j` is direction `dirvals[j]`, column `i` is temporal frequency `tfvals[i]`. -/
def tuning_array (dff : List ℚ) (tbl : List StimRow) : Mat :=
  fillAt2 (tuningArrayWrites dff tbl) (npEmpty2 8 5)

theorem prodCoords_nodup (m n : ℕ) :
    ((List.range m).flatMap
      (fun i => (List.range n).map (fun j => ((j, i) : ℕ × ℕ)))).Nodup := by
  rw [List.nodup_flatMap]
  constructor
  · intro a _
    exact (List.nodup_range n).map (fun x y hxy => ((Prod.mk.injEq _ _ _ _).mp hxy).1)
  · refine (List.pairwise_lt_range m).imp ?_
    intro a b hab
    intro x hxa hxb
    simp only [List.mem_map, List.mem_range] at hxa hxb
    obtain ⟨j₁, -, h₁⟩ := hxa
    obtain ⟨j₂, -, h₂⟩ := hxb
    have : a = b := by
      have e1 := ((Prod.mk.injEq _ _ _ _).mp h₁).2
      have e2 := ((Prod.mk.injEq _ _ _ _).mp h₂).2
      omega
    omega

theorem tuningArrayWrites_map_fst (dff : List ℚ) (tbl : List StimRow) :
    (tuningArrayWrites dff tbl).map Prod.fst =
      (List.range (tfvals tbl).length).flatMap
        (fun i => (List.range (dirvals tbl).length).map (fun j => (j, i))) := by
  rw [tuningArrayWrites, List.map_flatMap, ← List.enum_map_fst (tfvals tbl),
    ← List.enum_map_fst (dirvals tbl), List.flatMap_map]
  congr 1
  funext q
  rw [List.map_map, List.map_map]
  rfl

theorem tuning_array_get2? (dff : List ℚ) (tbl : List StimRow) (j i : ℕ)
    (hj : j < (dirvals tbl).length) (hi : i < (tfvals tbl).length)
    (hj8 : j < 8) (hi5 : i < 5) :
    get2? (tuning_array dff tbl) j i =
      some (tfdirMean dff tbl ((tfvals tbl).getD i 0) ((dirvals tbl).getD j 0)) := by
  apply fillAt2_mem
  · rw [tuningArrayWrites_map_fst]
    exact prodCoords_nodup _ _
  · refine List.mem_flatMap.mpr ⟨(i, (tfvals tbl).getD i 0), ?_, ?_⟩
    · refine List.mk_mem_enum_iff_getElem?.mpr ?_
      rw [List.getD_eq_getElem _ _ hi]
      exact List.getElem?_eq_getElem hi
    · refine List.mem_map.mpr ⟨(j, (dirvals tbl).getD j 0), ?_, rfl⟩
      refine List.mk_mem_enum_iff_getElem?.mpr ?_
      rw [List.getD_eq_getElem _ _ hj]
      exact List.getElem?_eq_getElem hj
  · simpa [npEmpty2]
  · rw [getD_row_length, npEmpty2, List.getElem?_replicate, if_pos hj8]
    simpa using hi5

theorem zip_filter_map_mask2 (p r : FVal → Bool) :
    ∀ (vals colA colB : List FVal),
      ((vals.zip (andMask (colA.map p) (colB.map r))).filter (·.2)).map (·.1) =
        ((vals.zip (colA.zip colB)).filter
          (fun q => p q.2.1 && r q.2.2)).map (·.1) := by
  intro vals
  induction vals with
  | nil => intro colA colB; rfl
  | cons a vs ih =>
    intro colA colB
    cases colA with
    | nil => rfl
    | cons c cs =>
      cases colB with
      | nil => rfl
      | cons b bs =>
        rw [List.map_cons, List.map_cons, andMask, List.zipWith_cons_cons,
          List.zip_cons_cons, List.zip_cons_cons, List.zip_cons_cons,
          List.filter_cons, List.filter_cons]
        cases h : p c && r b
        · simpa [andMask, h] using ih cs bs
        · simpa [andMask, h] using ih cs bs

/-- `trial_response[(temporal_frequency==tf)&(direction==d)]` is: pair each
trial's response with its (tf, direction), keep the pairs matching both, take
the responses. -/
theorem maskSelect_andMask (vals colA colB : List FVal) (tf d : ℚ) :
    maskSelect vals (andMask (eqMask colA tf) (eqMask colB d)) =
      ((vals.zip (colA.zip colB)).filter
        (fun q => feqC q.2.1 tf && feqC q.2.2 d)).map (·.1) := by
  rw [maskSelect, eqMask, eqMask]
  exact zip_filter_map_mask2 _ _ vals colA colB

/-- C2 (amended): with `tfvals` supplied as the finite unique
temporal-frequency values (the notebook itself never defines it — see
`C2_tfvals_never_assigned`), the 2-D tuning array has shape 8 × 5 (one row
per finite unique direction, one column per finite unique temporal
frequency), and entry `(j, i)` is the mean of `trial_response` over exactly
the trials whose temporal frequency is `tfvals[i]` and whose direction is
`dirvals[j]`. -/
theorem C2_tuning_array (dff : List ℚ) (tbl : List StimRow)
    (h8 : (dirvals tbl).length = 8) (h5 : (tfvals tbl).length = 5) :
    (tuning_array dff tbl).length = 8 ∧
    (∀ j, j < 8 → ((tuning_array dff tbl)[j]?).map List.length = some 5) ∧
    ∀ j i, j < 8 → i < 5 →
      get2? (tuning_array dff tbl) j i =
        some (npMeanF ((((trial_response dff tbl).zip
          ((temporal_frequency tbl).zip (direction tbl))).filter
          (fun q => feqC q.2.1 ((tfvals tbl).getD i 0) &&
            feqC q.2.2 ((dirvals tbl).getD j 0))).map (·.1))) := by
  refine ⟨?_, ?_, ?_⟩
  · rw [tuning_array, fillAt2_length, npEmpty2, List.length_replicate]
  · intro j hj
    rw [tuning_array, fillAt2_row_length, npEmpty2, List.getElem?_replicate,
      if_pos hj]
    simp
  · intro j i hj hi
    rw [tuning_array_get2? dff tbl j i (h8 ▸ hj) (h5 ▸ hi) hj hi,
      tfdirMean, maskSelect_andMask]

/-- A concrete table with the 8 drifting-grating directions and the 5
temporal frequencies (1, 2, 4, 8, 15 Hz) both present, plus a blank sweep. -/
def wTbl85 : List StimRow :=
  [⟨0, 2, some 0, some 1, some 0⟩, ⟨2, 4, some 45, some 2, some 0⟩,
   ⟨4, 6, some 90, some 4, some 0⟩, ⟨6, 8, some 135, some 8, some 0⟩,
   ⟨8, 10, some 180, some 15, some 0⟩, ⟨10, 12, some 225, some 1, some 0⟩,
   ⟨12, 14, some 270, some 2, some 0⟩, ⟨14, 16, some 315, some 4, some 0⟩,
   ⟨16, 18, none, none, some 1⟩]

/-- Witness for C2 (amended) at the concrete table: entry `(2, 1)` of the
array is the mean over the trials with temporal frequency `tfvals[1]` and
direction `dirvals[2]`. -/
theorem C2_tuning_array_witness :
    get2? (tuning_array wDff wTbl85) 2 1 =
      some (npMeanF ((((trial_response wDff wTbl85).zip
        ((temporal_frequency wTbl85).zip (direction wTbl85))).filter
        (fun q => feqC q.2.1 ((tfvals wTbl85).getD 1 0) &&
          feqC q.2.2 ((dirvals wTbl85).getD 2 0))).map (·.1))) :=
  (C2_tuning_array wDff wTbl85 (by decide) (by decide)).2.2 2 1
    (by decide) (by decide)

/-! ### The notebook's cell structure

To settle whether `tfvals` is defined before the 2-D aggregation cell runs,
the sequence of code cells is modelled by the list of names each cell
assigns.  Cells are listed in notebook order; exercise cells left empty for
the learner assign nothing. -/

/-- The names assigned by each code cell of the notebook, in order: colab
setup, imports, data access, `cell_id`, `exps`, `exps[0]`, session access,
trace and table loading, then the analysis and plotting cells. -/
def cellAssigns : List (List String) :=
  [["time"],
   ["np", "pd", "plt"],
   ["os", "sys", "platform", "BrainObservatoryCache", "platstring",
    "data_root", "manifest_file", "boc"],
   ["cell_id"],
   ["exps"],
   [],
   ["session_id", "data_set"],
   ["timestamps", "dff", "dff_trace", "stim_table"],
   [], [], [], [], [], [], [], [], [], [],
   [], [],
   ["direction", "temporal_frequency", "trial_response", "i"],
   [], [],
   [],
   ["trials"],
   ["all_dir", "dirvals"],
   [],
   ["i", "d"],
   ["tuning", "i", "d", "trials"],
   [], [], [], [], [],
   [], [], [],
   ["tuning_array", "i", "tf", "j", "d", "trials"],
   ["i", "tf"],
   [],
   ["cbar"],
   ["tuning_array_z"],
   ["cbar"],
   [], []]

/-- The position of the 2-D aggregation cell
(`tuning_array = np.empty((8,5)); for i,tf in enumerate(tfvals): ...`)
among the code cells. -/
def tuningArrayCell : ℕ := 37

/-- The names the 2-D aggregation cell reads. -/
def tuningArrayCellReads : List String :=
  ["np", "tfvals", "dirvals", "temporal_frequency", "direction",
   "trial_response", "tuning_array", "trials"]

/-- All names assigned by code cells before position `k`. -/
def assignedBefore (k : ℕ) : List String := (cellAssigns.take k).flatten

/-- C2 counterexample: the aggregation cell reads `tfvals`, `dirvals` is
assigned before it runs, but no code cell of the notebook — earlier or
anywhere — ever assigns `tfvals`: run top to bottom as shipped, the
aggregation raises `NameError`. -/
theorem C2_tfvals_never_assigned :
    "tfvals" ∈ tuningArrayCellReads ∧
    "dirvals" ∈ assignedBefore tuningArrayCell ∧
    "tfvals" ∉ assignedBefore tuningArrayCell ∧
    "tfvals" ∉ cellAssigns.flatten := by decide

/-! ### The z-scored array
(`tuning_array_z = (tuning_array - tuning_array.mean())/tuning_array.std()`) -/

/-- Float subtraction; NaN-propagating. -/
def fsub : FVal → FVal → FVal
  | some a, some b => some (a - b)
  | _, _ => none

/-- Float division; NaN-propagating, and division by zero is modelled as NaN
(numpy emits inf/nan with a warning there; the theorems assume a nonzero
divisor). -/
def fdiv : FVal → FVal → FVal
  | some a, some b => if b = 0 then none else some (a / b)
  | _, _ => none

/-- `A.mean()` of a 2-D array: the mean over all entries of the flattened
array — global, not per-row or per-column. -/
def matMean (M : Mat) : FVal := npMeanF M.flatten

/-- Specification-side arithmetic mean of a rational list. -/
def meanQd (l : List ℚ) : ℚ := l.sum / l.length

/-- Specification-side population variance (`A.std() ** 2`, numpy default
`ddof=0`): the mean squared deviation from the mean. -/
def varQ (l : List ℚ) : ℚ := (l.map (fun a => (a - meanQd l) ^ 2)).sum / l.length

/-- The z-scored array: elementwise `(A - A.mean()) / A.std()`.  numpy's
`std` is the nonnegative square root of the population variance, irrational
in general, so the scalar `s` standing for `tuning_array.std()` is a
parameter, pinned down in the theorems by `s ^ 2 = varQ ...` and `0 ≤ s`. -/
def tuning_array_z (M : Mat) (s : ℚ) : Mat :=
  M.map (fun row => row.map (fun x => fdiv (fsub x (matMean M)) (some s)))

theorem npMeanF_map_some (l : List ℚ) (h : l ≠ []) :
    npMeanF (l.map some) = some (meanQd l) := by
  have h1 : ¬ ((l.map (some : ℚ → FVal)).isEmpty = true) := by
    simpa [List.isEmpty_iff] using h
  have h2 : ¬ ((l.map (some : ℚ → FVal)).any (·.isNone) = true) := by simp
  rw [npMeanF, if_neg h1, if_neg h2, filterMap_id_map_some, List.length_map,
    meanQd]

theorem matMean_map_some (Q : List (List ℚ)) (h : Q.flatten ≠ []) :
    matMean (Q.map (fun row => row.map some)) = some (meanQd Q.flatten) := by
  rw [matMean, ← List.map_flatten, npMeanF_map_some _ h]

theorem sum_map_sub_div (l : List ℚ) (m s : ℚ) :
    (l.map (fun a => (a - m) / s)).sum = (l.sum - l.length * m) / s := by
  induction l with
  | nil => simp
  | cons a as ih =>
    rw [List.map_cons, List.sum_cons, List.sum_cons, ih, List.length_cons,
      div_add_div_same]
    congr 1
    push_cast
    ring

theorem sum_map_div (l : List ℚ) (f : ℚ → ℚ) (c : ℚ) :
    (l.map (fun a => f a / c)).sum = (l.map f).sum / c := by
  induction l with
  | nil => simp
  | cons a as ih =>
    rw [List.map_cons, List.sum_cons, List.map_cons, List.sum_cons, ih,
      div_add_div_same]

theorem meanQd_zscore (l : List ℚ) (h : l ≠ []) (s : ℚ) :
    meanQd (l.map (fun a => (a - meanQd l) / s)) = 0 := by
  have hn : (l.length : ℚ) ≠ 0 := by simpa using h
  rw [meanQd, List.length_map, sum_map_sub_div]
  have hm : l.sum - (l.length : ℚ) * meanQd l = 0 := by
    rw [meanQd]
    field_simp
  rw [hm, zero_div, zero_div]

theorem varQ_zscore (l : List ℚ) (h : l ≠ []) (s : ℚ)
    (hvar : s ^ 2 = varQ l) (hs : s ≠ 0) :
    varQ (l.map (fun a => (a - meanQd l) / s)) = 1 := by
  have hn : (l.length : ℚ) ≠ 0 := by simpa using h
  have hs2 : s ^ 2 ≠ 0 := pow_ne_zero 2 hs
  rw [varQ, meanQd_zscore l h s]
  simp only [sub_zero, List.map_map, Function.comp_def, div_pow]
  rw [sum_map_div, List.length_map]
  have hSg : (l.map (fun a => (a - meanQd l) ^ 2)).sum = s ^ 2 * l.length := by
    rw [hvar, varQ]
    field_simp
  rw [hSg, mul_comm, mul_div_assoc, div_self hs2, mul_one, div_self hn]

/-- C4: the z-scored tuning array is, elementwise, `(A - m) / s` with `m` the
mean and `s` the standard deviation over ALL entries of the 2-D array
(global, not per-row or per-column); consequently, when `s ≠ 0`, the z-scored
entries themselves have mean 0 and standard deviation 1 (variance 1). -/
theorem C4_tuning_array_z (Q : List (List ℚ)) (s : ℚ)
    (hne : Q.flatten ≠ []) (hvar : s ^ 2 = varQ Q.flatten) (hs : s ≠ 0) :
    tuning_array_z (Q.map (fun row => row.map some)) s =
      Q.map (fun row => row.map (fun a => some ((a - meanQd Q.flatten) / s))) ∧
    meanQd (Q.flatten.map (fun a => (a - meanQd Q.flatten) / s)) = 0 ∧
    varQ (Q.flatten.map (fun a => (a - meanQd Q.flatten) / s)) = 1 := by
  refine ⟨?_, meanQd_zscore _ hne s, varQ_zscore _ hne s hvar hs⟩
  rw [tuning_array_z, matMean_map_some Q hne, List.map_map]
  apply List.map_congr_left
  intro row _
  simp only [Function.comp_def]
  rw [List.map_map]
  apply List.map_congr_left
  intro a _
  simp [Function.comp_def, fsub, fdiv, hs]

/-- A concrete 2×2 array whose variance is the perfect square 1, so its
standard deviation is the rational 1. -/
def wQ : List (List ℚ) := [[0, 2], [2, 0]]

/-- Witness for C4: on the concrete array (mean 1, std 1) the z-scored array
is the deviations themselves, and they have mean 0 and variance 1. -/
theorem C4_tuning_array_z_witness :
    tuning_array_z (wQ.map (fun row => row.map some)) 1 =
      wQ.map (fun row => row.map (fun a => some ((a - meanQd wQ.flatten) / 1))) ∧
    meanQd (wQ.flatten.map (fun a => (a - meanQd wQ.flatten) / 1)) = 0 ∧
    varQ (wQ.flatten.map (fun a => (a - meanQd wQ.flatten) / 1)) = 1 :=
  C4_tuning_array_z wQ 1 (by decide)
    (by rw [wQ]; norm_num [varQ, meanQd]) (by norm_num)

/-! ### The notebook's mutable state, and the aggregation steps as state
transformers.  Each analysis cell assigns one output variable, reading the
arrays already in scope; nothing assigns to the trace or to the table. -/

/-- The variables of the notebook that the aggregation cells read or write. -/
structure NotebookState where
  dff_trace : List ℚ
  stim_table : List StimRow
  direction : List FVal
  temporal_frequency : List FVal
  trial_response : List FVal
  all_dir : List FVal
  dirvals : List ℚ
  tfvals : List ℚ
  tuning : List FVal
  tuning_array : Mat
  tuning_array_z : Mat

/-- The cell `direction = ...; temporal_frequency = ...; trial_response = ...`:
extracts the two stimulus columns and runs the trial-response loop. -/
def step_trial_response (st : NotebookState) : NotebookState :=
  { st with
    direction := Session2.direction st.stim_table
    temporal_frequency := Session2.temporal_frequency st.stim_table
    trial_response := Session2.trial_response st.dff_trace st.stim_table }

/-- The cell `all_dir = np.unique(direction); dirvals = all_dir[np.isfinite(all_dir)]`. -/
def step_dirvals (st : NotebookState) : NotebookState :=
  { st with
    all_dir := npUnique st.direction
    dirvals := (npUnique st.direction).filterMap id }

/-- Modelled from the spec: the learner's Exercise-3 cell producing `tfvals`
(see `tfvals`), the finite unique temporal-frequency values. -/
def step_tfvals (st : NotebookState) : NotebookState :=
  { st with tfvals := (npUnique st.temporal_frequency).filterMap id }

/-- The 1-D tuning-curve cell, reading `dirvals`, `direction` and
`trial_response` from the state. -/
def step_tuning (st : NotebookState) : NotebookState :=
  { st with
    tuning := fillAt (st.dirvals.enum.map (fun p =>
      (p.1, npMeanF (maskSelect st.trial_response (eqMask st.direction p.2)))))
      (npEmpty 8) }

/-- The 2-D tuning-array cell, reading `tfvals`, `dirvals`,
`temporal_frequency`, `direction` and `trial_response` from the state. -/
def step_tuning_array (st : NotebookState) : NotebookState :=
  { st with
    tuning_array := fillAt2 (st.tfvals.enum.flatMap (fun q =>
      st.dirvals.enum.map (fun p => ((p.1, q.1),
        npMeanF (maskSelect st.trial_response
          (andMask (eqMask st.temporal_frequency q.2)
            (eqMask st.direction p.2)))))))
      (npEmpty2 8 5) }

/-- The z-scoring cell, reading `tuning_array` from the state; `s` stands for
`tuning_array.std()` as in `tuning_array_z`. -/
def step_tuning_array_z (st : NotebookState) (s : ℚ) : NotebookState :=
  { st with tuning_array_z := Session2.tuning_array_z st.tuning_array s }

/-- Running all aggregation cells in notebook order. -/
def runAggregation (st : NotebookState) (s : ℚ) : NotebookState :=
  step_tuning_array_z
    (step_tuning_array (step_tuning (step_tfvals (step_dirvals
      (step_trial_response st))))) s

/-- C6: the aggregation pipeline is read-only on its inputs: after computing
`trial_response`, the 1-D curve, the 2-D array and the z-scored array, the
DF/F trace and every column of the stimulus table (`start`, `end`,
`orientation`, `temporal_frequency`, `blank_sweep`) are unchanged. -/
theorem C6_inputs_unchanged (st : NotebookState) (s : ℚ) :
    (runAggregation st s).dff_trace = st.dff_trace ∧
    (runAggregation st s).stim_table = st.stim_table ∧
    (runAggregation st s).stim_table.map (·.start) = st.stim_table.map (·.start) ∧
    (runAggregation st s).stim_table.map (·.«end») = st.stim_table.map (·.«end») ∧
    (runAggregation st s).stim_table.map (·.orientation) =
      st.stim_table.map (·.orientation) ∧
    (runAggregation st s).stim_table.map (·.temporal_frequency) =
      st.stim_table.map (·.temporal_frequency) ∧
    (runAggregation st s).stim_table.map (·.blank_sweep) =
      st.stim_table.map (·.blank_sweep) :=
  ⟨rfl, rfl, rfl, rfl, rfl, rfl, rfl⟩

/-! ### Iteration counts -/

/-- C7: every aggregation pass terminates after a bounded, input-sized number
of iterations: the trial-response loop performs exactly `len(stim_table)`
writes, the `i`-th of which reads the single trace subrange
`[start[i], end[i])`, and the 2-D loop performs exactly
(number of temporal frequencies) × (number of directions) writes. -/
theorem C7_bounded_passes (dff : List ℚ) (tbl : List StimRow) :
    (trialWrites dff tbl).length = tbl.length ∧
    (∀ i, i < tbl.length → (trialWrites dff tbl)[i]? = some (trialWrite dff tbl i)) ∧
    (tuningArrayWrites dff tbl).length =
      (tfvals tbl).length * (dirvals tbl).length := by
  refine ⟨?_, ?_, ?_⟩
  · rw [trialWrites, List.length_map, List.length_range]
  · intro i hi
    rw [trialWrites, List.getElem?_map, List.getElem?_range hi]
    rfl
  · rw [tuningArrayWrites, List.length_flatMap]
    have h : (List.map (List.length ∘ fun q : ℕ × ℚ =>
        (dirvals tbl).enum.map (fun p => ((p.1, q.1), tfdirMean dff tbl q.2 p.2)))
        ((tfvals tbl).enum) ) =
        (tfvals tbl).enum.map (fun _ => (dirvals tbl).length) := by
      apply List.map_congr_left
      intro q _
      simp [Function.comp_def]
    rw [h]
    simp [List.map_const]

/-- Witness for C7 at the concrete trace and table: two trials, two writes,
the second reading the subrange `[3, 5)`. -/
theorem C7_bounded_passes_witness :
    (trialWrites wDff wTbl).length = wTbl.length ∧
    (trialWrites wDff wTbl)[1]? = some (trialWrite wDff wTbl 1) ∧
    (tuningArrayWrites wDff wTbl).length =
      (tfvals wTbl).length * (dirvals wTbl).length :=
  ⟨(C7_bounded_passes wDff wTbl).1,
   (C7_bounded_passes wDff wTbl).2.1 1 (by decide),
   (C7_bounded_passes wDff wTbl).2.2⟩

/-! ### Blank sweeps and the tuning curves -/

theorem dirvals_sorted (tbl : List StimRow) : (dirvals tbl).Sorted (· < ·) := by
  rw [dirvals_eq_uniqueSorted, uniqueSorted]
  refine List.Sorted.lt_of_le (List.sorted_insertionSort _ _) ?_
  exact (List.perm_insertionSort _ _).nodup_iff.mpr (List.nodup_dedup _)

theorem mem_dirvals_iff (tbl : List StimRow) (q : ℚ) :
    q ∈ dirvals tbl ↔ some q ∈ direction tbl := by
  rw [dirvals_eq_uniqueSorted, uniqueSorted,
    (List.perm_insertionSort _ _).mem_iff, List.mem_dedup, List.mem_filterMap]
  constructor
  · rintro ⟨x, hx, hid⟩
    cases x with
    | none => exact absurd hid (by simp)
    | some a =>
      have : a = q := by simpa using hid
      exact this ▸ hx
  · intro h
    exact ⟨some q, h, rfl⟩

theorem eqMask_nan (col : List FVal) (d : ℚ) (k : ℕ) (hk : col[k]? = some none) :
    (eqMask col d)[k]? = some false := by
  rw [eqMask, List.getElem?_map, hk]
  rfl

/-- C8: `dirvals` holds exactly the unique finite direction values in
ascending order, and a NaN (blank-sweep) direction compares unequal to every
value, so the selection mask of every 1-D tuning entry — and of every 2-D
tuning entry, whatever the temporal-frequency comparison gives — is `False`
at every blank-sweep trial: blank sweeps contribute to no tuning entry. -/
theorem C8_blank_sweeps_excluded (tbl : List StimRow) :
    (dirvals tbl).Sorted (· < ·) ∧
    (∀ q : ℚ, q ∈ dirvals tbl ↔ some q ∈ direction tbl) ∧
    (∀ (k : ℕ) (d : ℚ), (direction tbl)[k]? = some none →
      (eqMask (direction tbl) d)[k]? = some false) ∧
    (∀ (k : ℕ) (tf d : ℚ), (direction tbl)[k]? = some none →
      k < (andMask (eqMask (temporal_frequency tbl) tf)
        (eqMask (direction tbl) d)).length →
      (andMask (eqMask (temporal_frequency tbl) tf)
        (eqMask (direction tbl) d))[k]? = some false) := by
  refine ⟨dirvals_sorted tbl, mem_dirvals_iff tbl, fun k d hk => eqMask_nan _ d k hk, ?_⟩
  intro k tf d hdir hk
  rw [andMask] at hk ⊢
  rw [List.length_zipWith] at hk
  have hk1 : k < (eqMask (temporal_frequency tbl) tf).length := lt_of_lt_of_le hk (min_le_left _ _)
  refine List.getElem?_zipWith_eq_some.mpr
    ⟨(eqMask (temporal_frequency tbl) tf).get ⟨k, hk1⟩, false, ?_, ?_, ?_⟩
  · rw [List.get_eq_getElem]
    exact List.getElem?_eq_getElem hk1
  · exact eqMask_nan _ d k hdir
  · exact Bool.and_false _

/-- Witness for C8 at the concrete table: its row 8 is the blank sweep (NaN
direction), and the selection masks for direction 270 — alone or combined
with temporal frequency 1 — are `False` there. -/
theorem C8_blank_sweeps_excluded_witness :
    (eqMask (direction wTbl8) 270)[8]? = some false ∧
    (andMask (eqMask (temporal_frequency wTbl8) 1)
      (eqMask (direction wTbl8) 270))[8]? = some false :=
  ⟨(C8_blank_sweeps_excluded wTbl8).2.2.1 8 270 (by decide),
   (C8_blank_sweeps_excluded wTbl8).2.2.2 8 1 270 (by decide) (by decide)⟩

/-! ### Non-emptiness of the per-condition trial sets -/

/-- A concrete table violating the all-combinations precondition: direction 0
only occurs at temporal frequency 1, and direction 90 only at 2. -/
def wTblGap : List StimRow :=
  [⟨0, 2, some 0, some 1, some 0⟩, ⟨2, 4, some 90, some 2, some 0⟩]

/-- C9: when every combination of a finite direction value and a finite
temporal-frequency value occurs in at least one trial, the boolean selection
behind every entry of the 2-D tuning array picks a non-empty set of trials,
so the undefined mean-of-an-empty-selection branch of `np.mean` is never
taken; and without that precondition the selection of some entry is empty
(on `wTblGap`, the entry for direction 0 at temporal frequency 2). -/
theorem C9_no_empty_mean :
    (∀ (dff : List ℚ) (tbl : List StimRow),
      (∀ d ∈ dirvals tbl, ∀ tf ∈ tfvals tbl, ∃ r ∈ tbl,
        feqC r.temporal_frequency tf = true ∧ feqC r.orientation d = true) →
      ∀ j i, j < (dirvals tbl).length → i < (tfvals tbl).length →
        maskSelect (trial_response dff tbl)
          (andMask (eqMask (temporal_frequency tbl) ((tfvals tbl).getD i 0))
            (eqMask (direction tbl) ((dirvals tbl).getD j 0))) ≠ []) ∧
    maskSelect (trial_response wDff wTblGap)
      (andMask (eqMask (temporal_frequency wTblGap) ((tfvals wTblGap).getD 1 0))
        (eqMask (direction wTblGap) ((dirvals wTblGap).getD 0 0))) = [] := by
  refine ⟨?_, by decide⟩
  intro dff tbl hocc j i hj hi
  have hd : (dirvals tbl).getD j 0 ∈ dirvals tbl := by
    rw [List.getD_eq_getElem _ _ hj]
    exact List.getElem_mem hj
  have htf : (tfvals tbl).getD i 0 ∈ tfvals tbl := by
    rw [List.getD_eq_getElem _ _ hi]
    exact List.getElem_mem hi
  obtain ⟨r, hr, hrtf, hrdir⟩ := hocc _ hd _ htf
  obtain ⟨k, hk, hrk⟩ := List.mem_iff_getElem.mp hr
  have hvlen : k < (trial_response dff tbl).length := by
    rw [trial_response_length]
    exact hk
  have htflen : k < (eqMask (temporal_frequency tbl) ((tfvals tbl).getD i 0)).length := by
    rw [eqMask, List.length_map, temporal_frequency, List.length_map]
    exact hk
  have hdirlen : k < (eqMask (direction tbl) ((dirvals tbl).getD j 0)).length := by
    rw [eqMask, List.length_map, direction, List.length_map]
    exact hk
  have hmasklen : k < (andMask (eqMask (temporal_frequency tbl) ((tfvals tbl).getD i 0))
      (eqMask (direction tbl) ((dirvals tbl).getD j 0))).length := by
    rw [andMask, List.length_zipWith]
    exact lt_min htflen hdirlen
  have hmaskval : (andMask (eqMask (temporal_frequency tbl) ((tfvals tbl).getD i 0))
      (eqMask (direction tbl) ((dirvals tbl).getD j 0)))[k]? = some true := by
    refine List.getElem?_zipWith_eq_some.mpr ⟨true, true, ?_, ?_, rfl⟩
    · rw [eqMask, List.getElem?_map, temporal_frequency, List.getElem?_map,
        List.getElem?_eq_getElem hk, hrk]
      exact congrArg some hrtf
    · rw [eqMask, List.getElem?_map, direction, List.getElem?_map,
        List.getElem?_eq_getElem hk, hrk]
      exact congrArg some hrdir
  apply List.ne_nil_of_mem
  show (trial_response dff tbl).get ⟨k, hvlen⟩ ∈ _
  rw [maskSelect]
  refine List.mem_map.mpr ⟨((trial_response dff tbl).get ⟨k, hvlen⟩, true), ?_, rfl⟩
  refine List.mem_filter.mpr ⟨?_, rfl⟩
  refine List.mem_iff_getElem.mpr ⟨k, ?_, ?_⟩
  · rw [List.length_zip]
    exact lt_min hvlen hmasklen
  · rw [List.getElem_zip]
    refine Prod.ext ?_ ?_
    · rw [List.get_eq_getElem]
    · have := List.getElem?_eq_getElem hmasklen
      rw [hmaskval] at this
      exact (Option.some.inj this).symm

/-- A concrete table in which every (direction, temporal-frequency)
combination occurs: two directions, one temporal frequency. -/
def wTblC9 : List StimRow :=
  [⟨0, 2, some 0, some 1, some 0⟩, ⟨2, 4, some 90, some 1, some 0⟩]

/-- Witness for C9: on the concrete table the selection behind entry (1, 0)
is non-empty. -/
theorem C9_no_empty_mean_witness :
    maskSelect (trial_response wDff wTblC9)
      (andMask (eqMask (temporal_frequency wTblC9) ((tfvals wTblC9).getD 0 0))
        (eqMask (direction wTblC9) ((dirvals wTblC9).getD 1 0))) ≠ [] :=
  C9_no_empty_mean.1 wDff wTblC9 (by decide) 1 0 (by decide) (by decide)

/-! ### The padded single-trial plot window (cell 29,
`dff_trace[stim_table.start[0]-30:stim_table.end[0]+30]`) -/

theorem natSlice_clamp (l : List ℚ) (s e : ℕ) :
    natSlice l (min s l.length) (min e l.length) = natSlice l s e := by
  rcases le_or_lt s l.length with h | h
  · rw [min_eq_left h]
    rcases le_or_lt e l.length with h2 | h2
    · rw [min_eq_left h2]
    · rw [min_eq_right h2.le, natSlice, natSlice,
        List.take_of_length_le (by rw [List.length_drop]),
        List.take_of_length_le (by rw [List.length_drop]; omega)]
  · rw [min_eq_right h.le, natSlice, natSlice, List.drop_length,
      List.drop_eq_nil_of_le h.le]
    simp

theorem pySlice_natCast_any (l : List ℚ) (s e : ℕ) :
    pySlice l (s : Int) (e : Int) = natSlice l s e := by
  have hs : ¬ ((s : Int) < 0) := by omega
  have he : ¬ ((e : Int) < 0) := by omega
  simp only [pySlice, normIdx, hs, he, if_false, Int.toNat_natCast]
  exact natSlice_clamp l s e

/-- The padded window around the first trial:
`dff_trace[stim_table.start[0]-30 : stim_table.end[0]+30]`. -/
def plotWindow (dff : List ℚ) (tbl : List StimRow) : List ℚ :=
  pySlice dff (((tbl.getD 0 dRow).start : Int) - 30)
    (((tbl.getD 0 dRow).«end» : Int) + 30)

/-- C10: when `start[0] ≥ 30` (and `end[0]+30 ≤ len(dff_trace)`) the padded
window is the intended one — the frames from `start[0]-30` up to (excluding)
`end[0]+30`; but when `start[0] < 30` the lower bound is a negative Python
index, and the slice silently starts `30 - start[0]` frames from the END of
the trace instead of raising an error. -/
theorem C10_padded_window (dff : List ℚ) (tbl : List StimRow) :
    (30 ≤ (tbl.getD 0 dRow).start → (tbl.getD 0 dRow).«end» + 30 ≤ dff.length →
      plotWindow dff tbl =
        (List.range' ((tbl.getD 0 dRow).start - 30)
          (((tbl.getD 0 dRow).«end» + 30) - ((tbl.getD 0 dRow).start - 30))).map
          (fun k => dff.getD k 0)) ∧
    ((tbl.getD 0 dRow).start < 30 → 30 ≤ dff.length + (tbl.getD 0 dRow).start →
      (((tbl.getD 0 dRow).start : Int) - 30 < 0 ∧
       plotWindow dff tbl =
         natSlice dff (dff.length - (30 - (tbl.getD 0 dRow).start))
           (min ((tbl.getD 0 dRow).«end» + 30) dff.length))) := by
  constructor
  · intro h30 hlen
    have e1 : ((tbl.getD 0 dRow).start : Int) - 30 =
        (((tbl.getD 0 dRow).start - 30 : ℕ) : Int) := by omega
    have e2 : ((tbl.getD 0 dRow).«end» : Int) + 30 =
        (((tbl.getD 0 dRow).«end» + 30 : ℕ) : Int) := by omega
    rw [plotWindow, e1, e2, pySlice_natCast_any,
      natSlice_eq_map_range' _ _ _ hlen]
  · intro h30 hlen
    refine ⟨by omega, ?_⟩
    have e1 : normIdx dff.length (((tbl.getD 0 dRow).start : Int) - 30) =
        dff.length - (30 - (tbl.getD 0 dRow).start) := by
      rw [normIdx, if_pos (by omega)]
      omega
    have e2 : normIdx dff.length (((tbl.getD 0 dRow).«end» : Int) + 30) =
        min ((tbl.getD 0 dRow).«end» + 30) dff.length := by
      rw [normIdx, if_neg (by omega)]
      omega
    rw [plotWindow, pySlice, e1, e2]

/-- A 120-frame trace for the in-bounds window witness. -/
def wDff120 : List ℚ := List.replicate 120 1

/-- A table whose first trial starts late enough for the full padding. -/
def wTbl30 : List StimRow := [⟨60, 90, some 0, some 1, some 0⟩]

/-- A 40-frame trace for the negative-index witness. -/
def wDff40 : List ℚ := List.replicate 40 1

/-- Witness for C10: with `start[0] = 60` the padded window is frames
`[30, 120)`; with `start[0] = 1 < 30` the window starts 29 frames from the
end of the trace. -/
theorem C10_padded_window_witness :
    plotWindow wDff120 wTbl30 =
      (List.range' 30 90).map (fun k => wDff120.getD k 0) ∧
    (((1 : ℕ) : Int) - 30 < 0 ∧
      plotWindow wDff40 wTbl =
        natSlice wDff40 (40 - (30 - 1)) (min (3 + 30) 40)) :=
  ⟨(C10_padded_window wDff120 wTbl30).1 (by decide) (by decide),
   (C10_padded_window wDff40 wTbl).2 (by decide) (by decide)⟩

end Session2
